import Mathlib

/-!
Verification of the revolver file-watcher core (revolver.go) against its
specification.  The Go code is embedded shallowly:

* `matchPatterns`, `Filter`, `Run`, `BuildCommand`, `parseActions` and the
  body of `Watch`'s loop become pure Lean functions;
* the external glob library (`doublestar.PathMatch`) is a function parameter
  `pm : String → String → Bool × Option String` returning (matched, error),
  mirroring the Go signature `PathMatch(pattern, name) (bool, error)`;
* command execution (`os/exec`) is modelled by a `CmdBehavior` describing how
  the child process behaves (launch failure / exit status), and build/run
  functions are modelled by records carrying the outcome of invoking them;
* invocation order is made observable through event traces (`Ev`);
* the filesystem is a rose tree `FSTree`; `filepath.Walk` (lexical order,
  `SkipDir` on excluded directories, whole-walk abort when the callback
  returns an error) is embedded as `walkList`.
-/

namespace Revolver

/-! ## Pattern matching (`matchPatterns`, revolver.go) -/

/-- Embedding of `matchPatterns(patterns []string, name string) bool`:
iterates the patterns and returns `true` on the first whose
`doublestar.PathMatch` verdict is `true`; the error component returned by the
library is discarded (`if ok, _ := doublestar.PathMatch(pattern, name); ok`). -/
def matchPatterns (pm : String → String → Bool × Option String)
    (patterns : List String) (name : String) : Bool :=
  match patterns with
  | [] => false
  | p :: ps => if (pm p name).1 then true else matchPatterns pm ps name

/-! ## File filtering (`Filter`, revolver.go) -/

/-- Embedding of the closure returned by `Filter(includePatterns,
excludePatterns)`: for each file, an exclude-pattern match skips the file,
otherwise an include-pattern match fires; `false` when no file fires. -/
def Filter (pm : String → String → Bool × Option String)
    (includePatterns excludePatterns : List String) : List String → Bool
  | [] => false
  | f :: fs =>
    if matchPatterns pm excludePatterns f then
      Filter pm includePatterns excludePatterns fs
    else if matchPatterns pm includePatterns f then
      true
    else
      Filter pm includePatterns excludePatterns fs

/-! ## Build / run execution model (`BuildFunc`, `RunFunc`, `Run`) -/

/-- Observable events of executing build, run and stop functions. -/
inductive Ev where
  | buildCall (name : String)
  | runCall (name : String)
  | stopCall (handle : String)
  deriving DecidableEq

/-- Model of one `BuildFunc`: invoking it emits a `buildCall` event and
yields `result` (`some e` = the Go function returned error `e`). -/
structure BuildF where
  name : String
  result : Option String
  deriving DecidableEq

/-- Model of one `RunFunc`: invoking it emits a `runCall` event and yields
either an error or a stop handle (`RunFunc` returns `(stop func(), err)`). -/
structure RunF where
  name : String
  result : Except String String

/-- Embedding of `Run(builds []BuildFunc, run RunFunc) (func(), error)`
(revolver.go lines 121-134): build functions are invoked in list order, the
first error is returned at once (`return nil, err`, modelled `.error e`);
with no run function configured the current source returns `nil, nil`
(modelled `.ok none`; the older `return func() {}, nil` is commented out in
the source); otherwise the run function is invoked and its stop handle
returned.  The first component is the trace of invocations. -/
def Run : List BuildF → Option RunF → List Ev × Except String (Option String)
  | [], none => ([], .ok none)
  | [], some r =>
    ([.runCall r.name],
      match r.result with
      | .error e => .error e
      | .ok s => .ok (some s))
  | b :: bs, run =>
    match b.result with
    | some e => ([.buildCall b.name], .error e)
    | none =>
      let rest := Run bs run
      (.buildCall b.name :: rest.1, rest.2)

/-- Whether an execution result carries an actual (non-nil) stop handle. -/
def hasStopHandle (r : List Ev × Except String (Option String)) : Bool :=
  match r.2 with
  | .ok (some _) => true
  | _ => false

/-! ## Command execution (`BuildCommand`, revolver.go) -/

/-- Behaviour of one external command: whether `exec.Cmd.Start` fails, and
the exit status the process completes with otherwise. -/
structure CmdBehavior where
  launchErr : Option String
  exitCode : Nat
  deriving DecidableEq

/-- Model of Go `cmd.Run()`: starts the command and waits for completion;
the error is the launch failure if any, else an `exit status` error exactly
when the process exits non-zero. -/
def cmdRun (b : CmdBehavior) : Option String :=
  match b.launchErr with
  | some e => some e
  | none => if b.exitCode = 0 then none else some ("exit status " ++ toString b.exitCode)

/-- Embedding of the `BuildFunc` returned by `BuildCommand(command, args...)`:
runs the command to completion via `cmd.Run()` and wraps any failure as
`Error executing build func: "<command> <args joined with "">": <cause>`
(the source joins args with `strings.Join(args, "")`, i.e. no separator). -/
def BuildCommand (command : String) (args : List String) (b : CmdBehavior) : Option String :=
  match cmdRun b with
  | some e =>
    some ("Error executing build func: \"" ++ command ++ " " ++ String.join args ++ "\": " ++ e)
  | none => none

/-! ## Action parsing (`parseCommand`, `parseActions`, revolver.go) -/

/-- Config-level action block (`Action`), after YAML decoding. -/
structure SrcAction where
  Name : String
  Patterns : List String
  ExcludePatterns : List String
  BuildCommands : List String
  RunCommand : String
  deriving DecidableEq

/-- Embedding of `parseCommand`: `strings.Split(command, " ")`, first part is
the executable, the rest the arguments (`strings.Split` never yields an empty
slice, so the `[]` case below is unreachable). -/
def parseCommand (command : String) : String × List String :=
  match command.splitOn " " with
  | [] => ("", [])
  | c :: args => (c, args)

/-- Runtime action record (`action` struct): the derived ID, the name, the
parsed build commands and the parsed run command (`none` when the config's
run command is empty).  The include/exclude patterns that feed `Filter` are
kept as data. -/
structure RAction where
  ID : String
  Name : String
  Patterns : List String
  ExcludePatterns : List String
  builds : List (String × List String)
  run : Option (String × List String)
  deriving DecidableEq

/-- Loop body of `parseActions`: `ids` is the set of names already inserted
(`ids[a.Name] = struct{}{}` runs for every action, the empty name included),
`i` the 0-based loop index.  The ID is the name; the 1-based position when
the name is empty; `name-position` when the name was already inserted. -/
def parseActionsGo (ids : List String) (i : Nat) : List SrcAction → List RAction
  | [] => []
  | a :: rest =>
    { ID :=
        if a.Name = "" then toString (i + 1)
        else if a.Name ∈ ids then a.Name ++ "-" ++ toString (i + 1)
        else a.Name
      Name := a.Name
      Patterns := a.Patterns
      ExcludePatterns := a.ExcludePatterns
      builds := a.BuildCommands.map parseCommand
      run := if a.RunCommand = "" then none else some (parseCommand a.RunCommand) }
      :: parseActionsGo (a.Name :: ids) (i + 1) rest

/-- Embedding of `parseActions(config []Action) []action`. -/
def parseActions (config : List SrcAction) : List RAction :=
  parseActionsGo [] 0 config

/-- Spec-side rendering of the ActionID assignment rule, written from the
spec's words: position `i` (0-based) gets the decimal 1-based position when
the name is empty, the bare name when no earlier action used it, and
`name-position` when the name repeats an earlier action's name.  `all` is
the full name list, so "earlier" is membership in `all.take i`. -/
def specActionIDsFrom (all : List String) (i : Nat) : List String → List String
  | [] => []
  | n :: rest =>
    (if n = "" then toString (i + 1)
     else if n ∈ all.take i then n ++ "-" ++ toString (i + 1)
     else n) :: specActionIDsFrom all (i + 1) rest

/-- Spec-side ActionID list for a list of action names. -/
def specActionIDs (names : List String) : List String :=
  specActionIDsFrom names 0 names

/-! ## The `Watch` loop (revolver.go lines 292-327) -/

/-- `stopFuncs map[string]func()`: association list, later entries shadow
earlier ones (`mapFind` reads the most recent binding).  A stored `none`
models a Go `nil` stop function (which `Run` returns on error and when no
run command is configured). -/
abbrev SMap := List (String × Option String)

/-- Lookup in the `stopFuncs` map: `some v` when the key is bound (with `v`
the stored, possibly nil, stop function), `none` when absent. -/
def mapFind (m : SMap) (k : String) : Option (Option String) :=
  match m with
  | [] => none
  | e :: rest =>
    match mapFind rest k with
    | some v => some v
    | none => if e.1 = k then some e.2 else none

/-- Map assignment `stopFuncs[k] = v` (the appended binding shadows). -/
def mapSet (m : SMap) (k : String) (v : Option String) : SMap :=
  m ++ [(k, v)]

/-- One action of the `Watch` loop, with its `Filter` closure and the
build/run function models `Run` consumes. -/
structure MAction where
  ID : String
  filterRes : List String → Bool
  builds : List BuildF
  run : Option RunF

/-- The stop function `Watch` stores for an action after calling `Run`:
`stopFuncs[action.ID], err = Run(...)` assigns `Run`'s first return value,
which is `nil` on error. -/
def runStore (a : MAction) : Option String :=
  match (Run a.builds a.run).2 with
  | .error _ => none
  | .ok h => h

/-- The inner `for _, action := range actions` loop of one `Watch` tick:
actions whose filter rejects the change set are skipped; otherwise, when a
non-nil stop function is stored for the ID it is invoked first
(`stop()`), then `Run` executes the build/run pipeline and its stop handle
is stored.  Returns the event trace and the updated `stopFuncs` map. -/
def tickActions (changes : List String) : List MAction → SMap → List Ev × SMap
  | [], st => ([], st)
  | a :: rest, st =>
    if a.filterRes changes then
      let stopEvs : List Ev :=
        match mapFind st a.ID with
        | some (some s) => [.stopCall s]
        | _ => []
      let r := Run a.builds a.run
      let next := tickActions changes rest (mapSet st a.ID (runStore a))
      (stopEvs ++ r.1 ++ next.1, next.2)
    else tickActions changes rest st

/-- One tick of the `Watch` loop after `detect()`: an empty change set skips
every action (`if len(changes) == 0 { ... continue }`). -/
def tick (changes : List String) (actions : List MAction) (st : SMap) : List Ev × SMap :=
  if changes.isEmpty then ([], st) else tickActions changes actions st

/-! ## Change detection (`Detect`, revolver.go lines 31-79)

The filesystem under the watched root is a list of `FSTree` nodes, children
listed in lexical order (the order `filepath.Walk` visits them).  Paths are
component lists; the relative-path string `filepath.Rel` hands to
`matchPatterns` is the components joined with `/` (`"."` for the root). -/

/-- A filesystem entry: a regular file with a modification time, or a
directory with a readability flag (`readable = false` models a directory
whose listing fails, making `filepath.Walk` report an error for it). -/
inductive FSTree where
  | file (name : String) (mtime : Nat)
  | dir (name : String) (readable : Bool) (children : List FSTree)

/-- Name of an entry. -/
def treeName : FSTree → String
  | .file n _ => n
  | .dir n _ _ => n

/-- Relative-path string of a component list (as `filepath.Rel` yields it
for a path strictly below the root). -/
def pathStr (p : List String) : String := String.intercalate "/" p

/-- Embedding of `filepath.Walk` running `Detect`'s callback over a sibling
list at prefix `pref`.  Returns the `(relative path, mtime)` entries added
to `curr` and `true` iff the walk completed: a directory matching an
exclude pattern is skipped whole (`filepath.SkipDir`); an unreadable
directory makes the callback receive and return a non-nil error, which
makes `filepath.Walk` stop the entire walk (entries collected before the
error are kept, everything after it is never visited). -/
def walkList (excl : String → Bool) : List String → List FSTree → List (List String × Nat) × Bool
  | _, [] => ([], true)
  | pref, .file n m :: ts =>
    let r := walkList excl pref ts
    ((pref ++ [n], m) :: r.1, r.2)
  | pref, .dir n rd cs :: ts =>
    if excl (pathStr (pref ++ [n])) then walkList excl pref ts
    else if rd then
      let rc := walkList excl (pref ++ [n]) cs
      if rc.2 then
        let r := walkList excl pref ts
        (rc.1 ++ r.1, r.2)
      else (rc.1, false)
    else ([], false)

/-- The walk from the root itself: the root's relative path is `"."`, so an
exclude pattern matching `"."` skips everything (`SkipDir` on the root ends
the walk without error); an unreadable root aborts at once. -/
def walkRoot (excl : String → Bool) (rootReadable : Bool) (cs : List FSTree) :
    List (List String × Nat) × Bool :=
  if excl "." then ([], true)
  else if rootReadable then walkList excl [] cs
  else ([], false)

/-- Lookup in a snapshot (`map[string]os.FileInfo`); later entries shadow
earlier ones, matching Go map overwrite. -/
def snapFind (s : List (List String × Nat)) (p : List String) : Option Nat :=
  match s with
  | [] => none
  | e :: rest =>
    match snapFind rest p with
    | some m => some m
    | none => if e.1 = p then some e.2 else none

/-- One call of the closure `Detect` returns (revolver.go lines 34-78),
with the detector's stored snapshot passed in as `prev` and returned
updated (`prev = curr`): walk the tree collecting `curr`; a visited file
absent from `prev` or carrying a different mtime is appended to `changed`;
afterwards every `prev` path absent from `curr` is appended; the walk
error, if any, is discarded (`filepath.Walk`'s return value is ignored). -/
def detectPoll (excl : String → Bool) (prev : List (List String × Nat))
    (rootReadable : Bool) (cs : List FSTree) :
    List (List String) × List (List String × Nat) :=
  let curr := (walkRoot excl rootReadable cs).1
  let changedCM := curr.filterMap (fun e =>
    match snapFind prev e.1 with
    | none => some e.1
    | some m0 => if m0 ≠ e.2 then some e.1 else none)
  let deleted := (prev.filter (fun e => (snapFind curr e.1).isNone)).map Prod.fst
  (changedCM ++ deleted, curr)

/-- Spec-side visibility of a file below prefix `pref` in sibling list `ts`:
path `p` reaches a regular file with mtime `m`, and no directory on the way
matches an exclude pattern. -/
def visibleIn (excl : String → Bool) : List String → List FSTree → List String → Nat → Prop
  | _, _, [], _ => False
  | pref, ts, n :: rest, m =>
    ∃ t, t ∈ ts ∧
      ((t = FSTree.file n m ∧ rest = []) ∨
       (∃ rd cs, t = FSTree.dir n rd cs ∧ excl (pathStr (pref ++ [n])) = false ∧ rd = true ∧
          visibleIn excl (pref ++ [n]) cs rest m))

/-- Spec-side visibility from the root: the root's relative path `"."` must
not match an exclude pattern, and the path must reach a file without
crossing an excluded directory. -/
def visible (excl : String → Bool) (cs : List FSTree) (p : List String) (m : Nat) : Prop :=
  excl "." = false ∧ visibleIn excl [] cs p m

/-- Well-formed sibling lists: sibling names are distinct, recursively (a
property every real directory tree has). -/
def wfChildren : List FSTree → Bool
  | [] => true
  | .file n _ :: ts => (ts.all fun u => treeName u != n) && wfChildren ts
  | .dir n _ cs :: ts => (ts.all fun u => treeName u != n) && wfChildren cs && wfChildren ts

/-- Every directory in the list is readable, recursively. -/
def allReadable : List FSTree → Bool
  | [] => true
  | .file _ _ :: ts => allReadable ts
  | .dir _ rd cs :: ts => rd && allReadable cs && allReadable ts

/-! ## Theorems -/

/-- Helper: `Filter` is the `any` of per-file include-and-not-exclude. -/
theorem filter_eq_any (pm : String → String → Bool × Option String)
    (includePatterns excludePatterns : List String) (files : List String) :
    Filter pm includePatterns excludePatterns files =
      files.any fun f =>
        !matchPatterns pm excludePatterns f && matchPatterns pm includePatterns f := by
  induction files with
  | nil => rfl
  | cons f fs ih =>
    cases he : matchPatterns pm excludePatterns f <;>
      cases hi : matchPatterns pm includePatterns f <;>
        simp [Filter, he, hi, ih]

/-- C10: `matchPatterns` is total, discards the glob library's error
component (two libraries agreeing on match verdicts give the same result
regardless of errors), and a list of patterns on which the library reports
an error and no match — as `doublestar.PathMatch` does for every malformed
pattern — matches nothing. -/
theorem matchPatterns_total_discards_errors
    (pm1 pm2 : String → String → Bool × Option String)
    (patterns : List String) (name : String)
    (hagree : ∀ p n, (pm1 p n).1 = (pm2 p n).1)
    (hbad : ∀ p ∈ patterns, (pm1 p name).1 = false ∧ (pm1 p name).2.isSome = true) :
    matchPatterns pm1 patterns name = matchPatterns pm2 patterns name ∧
    matchPatterns pm1 patterns name = false := by
  induction patterns with
  | nil => exact ⟨rfl, rfl⟩
  | cons p ps ih =>
    have hb := (hbad p (List.mem_cons_self p ps)).1
    have h2 : (pm2 p name).1 = false := by rw [← hagree p name]; exact hb
    have hrest := ih fun q hq => hbad q (List.mem_cons_of_mem p hq)
    constructor
    · simp [matchPatterns, hb, h2, hrest.1]
    · simp [matchPatterns, hb, hrest.2]

/-- Witness for C10 at a concrete malformed pattern list. -/
theorem matchPatterns_total_discards_errors_wit :
    matchPatterns (fun _ _ => (false, some "bad pattern")) ["["] "file.go" =
        matchPatterns (fun _ _ => (false, none)) ["["] "file.go" ∧
    matchPatterns (fun _ _ => (false, some "bad pattern")) ["["] "file.go" = false :=
  matchPatterns_total_discards_errors
    (fun _ _ => (false, some "bad pattern")) (fun _ _ => (false, none)) ["["] "file.go"
    (fun _ _ => rfl) (fun _ _ => ⟨rfl, rfl⟩)

/-- C5: the `Filter` closure fires exactly when some changed file matches an
include pattern and no exclude pattern; a file matching both is skipped but
other files can still fire (reflected by the existential ranging over all
files); an empty changed-file list never fires. -/
theorem filter_fires_iff (pm : String → String → Bool × Option String)
    (includePatterns excludePatterns : List String) (files : List String) :
    (Filter pm includePatterns excludePatterns files = true ↔
      ∃ f, f ∈ files ∧ matchPatterns pm includePatterns f = true ∧
        matchPatterns pm excludePatterns f = false) ∧
    Filter pm includePatterns excludePatterns [] = false := by
  refine ⟨?_, rfl⟩
  rw [filter_eq_any]
  simp only [List.any_eq_true, Bool.and_eq_true, Bool.not_eq_true']
  constructor
  · rintro ⟨f, hf, hx, hi⟩; exact ⟨f, hf, hi, hx⟩
  · rintro ⟨f, hf, hi, hx⟩; exact ⟨f, hf, hx, hi⟩

/-- C2: `Run` invokes the build functions strictly in list order; the first
failing build's error is returned immediately, and neither any later build
function nor the run function is invoked (the trace ends at the failing
build and contains no `runCall`). -/
theorem run_halts_at_first_failing_build
    (pre : List BuildF) (b : BuildF) (post : List BuildF) (run : Option RunF) (e : String)
    (hpre : ∀ x ∈ pre, x.result = none) (hb : b.result = some e) :
    Run (pre ++ b :: post) run =
      (pre.map (fun x => Ev.buildCall x.name) ++ [Ev.buildCall b.name], Except.error e) := by
  induction pre with
  | nil => simp [Run, hb]
  | cons x xs ih =>
    have hx : x.result = none := hpre x (List.mem_cons_self x xs)
    have hrec := ih fun y hy => hpre y (List.mem_cons_of_mem x hy)
    simp [Run, hx, hrec]

/-- Witness for C2: second of three builds fails; the third build and the
run function never appear in the trace. -/
theorem run_halts_at_first_failing_build_wit :
    Run ([⟨"b1", none⟩] ++ ⟨"b2", some "boom"⟩ :: [⟨"b3", none⟩])
        (some ⟨"r", Except.ok "h"⟩) =
      ([Ev.buildCall "b1", Ev.buildCall "b2"], Except.error "boom") := by
  have h := run_halts_at_first_failing_build [⟨"b1", none⟩] ⟨"b2", some "boom"⟩ [⟨"b3", none⟩]
    (some ⟨"r", Except.ok "h"⟩) "boom" (by intro x hx; simp at hx; rw [hx]) rfl
  simpa using h

/-- C3 counterexample: with every build succeeding (here: none) and no run
function configured, the current source's `Run` returns `nil, nil`
(the no-op closure `return func() {}, nil` is commented out), so the
returned stop handle is absent (`none`), not a callable no-op function. -/
theorem run_no_run_cmd_counterexample :
    Run [] none = ([], Except.ok none) ∧ hasStopHandle (Run [] none) = false :=
  ⟨rfl, rfl⟩

/-- C3 (amended): when every build succeeds and no run function is
configured, `Run` returns no error together with a `nil` stop handle
(`none`); callers must nil-check it before invoking, as `Watch` and the
tests do (`ok && stop != nil` / `if stop != nil`). -/
theorem run_no_run_cmd_returns_nil_handle
    (builds : List BuildF) (h : ∀ x ∈ builds, x.result = none) :
    Run builds none = (builds.map (fun x => Ev.buildCall x.name), Except.ok none) := by
  induction builds with
  | nil => rfl
  | cons x xs ih =>
    have hx : x.result = none := h x (List.mem_cons_self x xs)
    have hrec := ih fun y hy => h y (List.mem_cons_of_mem x hy)
    simp [Run, hx, hrec]

/-- Witness for the amended C3 at one succeeding build. -/
theorem run_no_run_cmd_returns_nil_handle_wit :
    Run [⟨"make", none⟩] none = ([Ev.buildCall "make"], Except.ok none) := by
  have h := run_no_run_cmd_returns_nil_handle [⟨"make", none⟩]
    (by intro x hx; simp at hx; rw [hx])
  simpa using h

/-- C4: the build primitive runs the command to completion (`cmd.Run`,
modelled by `cmdRun`, which reports the launch failure or the final exit
status); it returns an error wrapping the command string and the underlying
cause exactly when the command fails to launch or exits non-zero, and `nil`
exactly when the command completed with exit status zero. -/
theorem buildCommand_error_iff (command : String) (args : List String) (b : CmdBehavior) :
    BuildCommand command args b =
      (cmdRun b).map (fun e =>
        "Error executing build func: \"" ++ command ++ " " ++ String.join args ++ "\": " ++ e) ∧
    (BuildCommand command args b = none ↔ b.launchErr = none ∧ b.exitCode = 0) := by
  obtain ⟨l, c⟩ := b
  cases l with
  | some e => simp [BuildCommand, cmdRun]
  | none =>
    by_cases hc : c = 0 <;> simp [BuildCommand, cmdRun, hc]

/-- C7 (code bug): ActionIDs are not always pairwise distinct.  With a first
action named `"2"` and a second unnamed action, `parseActions` assigns the
ID `"2"` to both: the first keeps its name, the second gets its 1-based
position.  Both actions then share one `stopFuncs` slot in `Watch`. -/
theorem parseActions_duplicate_ids :
    (parseActions [⟨"2", [], [], [], ""⟩, ⟨"", [], [], [], ""⟩]).map RAction.ID = ["2", "2"] ∧
    ¬ ((parseActions [⟨"2", [], [], [], ""⟩, ⟨"", [], [], [], ""⟩]).map RAction.ID).Nodup := by
  refine ⟨rfl, ?_⟩
  intro h
  have h2 : (["2", "2"] : List String).Nodup := by
    have he : (parseActions [⟨"2", [], [], [], ""⟩, ⟨"", [], [], [], ""⟩]).map RAction.ID
        = ["2", "2"] := rfl
    rwa [he] at h
  simp at h2

/-- Helper for C8: the loop of `parseActionsGo` computes, position by
position, the spec's ID rule, where the `ids` set stands for the names of
the already-consumed prefix. -/
theorem parseActionsGo_ids (rest : List SrcAction) :
    ∀ (all : List String) (i : Nat) (ids : List String),
      all.drop i = rest.map SrcAction.Name →
      (∀ x, x ∈ ids ↔ x ∈ all.take i) →
      (parseActionsGo ids i rest).map RAction.ID =
        specActionIDsFrom all i (rest.map SrcAction.Name) := by
  induction rest with
  | nil => intro all i ids _ _; rfl
  | cons a rest ih =>
    intro all i ids hdrop hids
    have hget : all[i]? = some a.Name := by
      have h0 : (all.drop i)[0]? = some a.Name := by rw [hdrop]; simp
      rw [List.getElem?_drop] at h0
      simpa using h0
    have htake : all.take (i + 1) = all.take i ++ [a.Name] := by
      rw [List.take_succ, hget]
      rfl
    have hdrop' : all.drop (i + 1) = rest.map SrcAction.Name := by
      have h1 : all.drop (i + 1) = (all.drop i).drop 1 := by
        rw [List.drop_drop, Nat.add_comm]
      rw [h1, hdrop]
      rfl
    have hids' : ∀ x, x ∈ a.Name :: ids ↔ x ∈ all.take (i + 1) := by
      intro x
      rw [htake]
      simp [hids x, or_comm]
    have hmem : (a.Name ∈ ids) = (a.Name ∈ all.take i) := by
      simp [hids a.Name]
    simp only [parseActionsGo, specActionIDsFrom, List.map_cons, List.cons.injEq]
    refine ⟨?_, ih all (i + 1) (a.Name :: ids) hdrop' hids'⟩
    by_cases hn : a.Name = ""
    · simp [hn]
    · by_cases hin : a.Name ∈ all.take i
      · have : a.Name ∈ ids := (hids a.Name).mpr hin
        simp [hn, hin, this]
      · have : a.Name ∉ ids := fun hc => hin ((hids a.Name).mp hc)
        simp [hn, hin, this]

/-- C8: ActionID assignment follows the spec's rule: an empty name gets the
1-based position as a decimal string; a name unused by every earlier action
is kept as-is; a name repeating an earlier action's name is suffixed with
`-` and the 1-based position. -/
theorem parseActions_id_rule (config : List SrcAction) :
    (parseActions config).map RAction.ID = specActionIDs (config.map SrcAction.Name) :=
  parseActionsGo_ids config (config.map SrcAction.Name) 0 [] (by simp) (by simp)

/-- Helper for C9: processing a concatenation of action lists threads the
`stopFuncs` map through and concatenates the event traces. -/
theorem tickActions_append (changes : List String) (l1 l2 : List MAction) (st : SMap) :
    tickActions changes (l1 ++ l2) st =
      ((tickActions changes l1 st).1 ++
        (tickActions changes l2 (tickActions changes l1 st).2).1,
       (tickActions changes l2 (tickActions changes l1 st).2).2) := by
  induction l1 generalizing st with
  | nil => simp [tickActions]
  | cons a rest ih =>
    by_cases hf : a.filterRes changes <;> simp [tickActions, hf, ih]

/-- C9: in one tick of the `Watch` loop, an action that fires while a live
(non-nil) stop handle is stored under its ActionID first invokes that stop
handle, and only then runs its build/run pipeline: the tick's trace puts
`stopCall s` immediately before all of the action's `Run` events.  The map
state when the action is reached is the one left by the actions before it
in the configured order. -/
theorem watch_stops_before_restart
    (changes : List String) (pre : List MAction) (a : MAction) (post : List MAction)
    (st : SMap) (s : String)
    (hne : changes ≠ [])
    (hfire : a.filterRes changes = true)
    (hlive : mapFind (tickActions changes pre st).2 a.ID = some (some s)) :
    (tick changes (pre ++ a :: post) st).1 =
      (tickActions changes pre st).1 ++
        (Ev.stopCall s :: ((Run a.builds a.run).1 ++
          (tickActions changes post
            (mapSet (tickActions changes pre st).2 a.ID (runStore a))).1)) := by
  have hne' : changes.isEmpty = false := by cases changes <;> simp_all
  rw [tick, hne']
  simp only [Bool.false_eq_true, if_false]
  rw [tickActions_append]
  simp [tickActions, hfire, hlive]

/-- Witness for C9: a single firing action whose ID holds the live handle
`"h"`; the tick's trace begins with stopping `"h"`. -/
theorem watch_stops_before_restart_wit :
    (tick ["x"] ([] ++ ⟨"app", fun _ => true, [], none⟩ :: [])
        [("app", some "h")]).1 = [Ev.stopCall "h"] := by
  have h := watch_stops_before_restart ["x"] [] ⟨"app", fun _ => true, [], none⟩ []
    [("app", some "h")] "h" (by simp) rfl rfl
  simpa using h

/-- Helper: nothing is visible in an empty sibling list. -/
theorem visibleIn_nil (excl : String → Bool) (pref : List String) (p : List String) (m : Nat) :
    ¬ visibleIn excl pref [] p m := by
  cases p <;> simp [visibleIn]

/-- Helper: visibility in a sibling list with head `t` splits into
visibility through `t` and visibility among the remaining siblings. -/
theorem visibleIn_cons (excl : String → Bool) (pref : List String) (t : FSTree)
    (ts : List FSTree) (n : String) (rest : List String) (m : Nat) :
    visibleIn excl pref (t :: ts) (n :: rest) m ↔
      ((t = FSTree.file n m ∧ rest = []) ∨
       (∃ rd cs, t = FSTree.dir n rd cs ∧ excl (pathStr (pref ++ [n])) = false ∧ rd = true ∧
          visibleIn excl (pref ++ [n]) cs rest m)) ∨
      visibleIn excl pref ts (n :: rest) m := by
  simp only [visibleIn, List.mem_cons]
  constructor
  · rintro ⟨t', ht' | ht', hp⟩
    · subst ht'; exact Or.inl hp
    · exact Or.inr ⟨t', ht', hp⟩
  · rintro (hp | ⟨t', ht', hp⟩)
    · exact ⟨t, Or.inl rfl, hp⟩
    · exact ⟨t', Or.inr ht', hp⟩

/-- Helper: a walk over an all-readable sibling list completes without
error. -/
theorem walkList_ok (excl : String → Bool) (pref : List String) (ts : List FSTree)
    (h : allReadable ts = true) : (walkList excl pref ts).2 = true := by
  induction pref, ts using walkList.induct excl with
  | case1 x => simp [walkList]
  | case2 pref n m ts ih =>
    simp only [allReadable] at h
    simp [walkList, ih h]
  | case3 pref n rd cs ts hex ih =>
    simp only [allReadable, Bool.and_eq_true] at h
    simp only [walkList, if_pos hex]
    exact ih h.2
  | case4 pref n cs ts hnex rc hrc ihcs ihts =>
    simp only [allReadable, Bool.and_eq_true] at h
    have hrc' : (walkList excl (pref ++ [n]) cs).2 = true := hrc
    simp [walkList, if_neg hnex, hrc', ihts h.2]
  | case5 pref n cs ts hnex rc hrc ihcs =>
    simp only [allReadable, Bool.and_eq_true] at h
    exact absurd (ihcs h.1.2) hrc
  | case6 pref n rd cs ts hnex hrd =>
    simp only [allReadable, Bool.and_eq_true] at h
    exact absurd h.1.1 hrd

/-- Helper: every entry a walk collects lies strictly below the prefix,
through the name of one of the siblings. -/
theorem walkList_mem_shape (excl : String → Bool) (pref : List String) (ts : List FSTree) :
    ∀ q m, (q, m) ∈ (walkList excl pref ts).1 →
      ∃ t ∈ ts, ∃ rest, q = pref ++ treeName t :: rest := by
  induction pref, ts using walkList.induct excl with
  | case1 x => intro q m hq; simp [walkList] at hq
  | case2 pref n m' ts ih =>
    intro q m hq
    simp only [walkList, List.mem_cons] at hq
    rcases hq with h | h
    · refine ⟨FSTree.file n m', List.mem_cons_self .., [], ?_⟩
      have := congrArg Prod.fst h
      simpa [treeName] using this
    · obtain ⟨t, ht, rest, hr⟩ := ih q m h
      exact ⟨t, List.mem_cons_of_mem _ ht, rest, hr⟩
  | case3 pref n rd cs ts hex ih =>
    intro q m hq
    simp only [walkList, if_pos hex] at hq
    obtain ⟨t, ht, rest, hr⟩ := ih q m hq
    exact ⟨t, List.mem_cons_of_mem _ ht, rest, hr⟩
  | case4 pref n cs ts hnex rc hrc ihcs ihts =>
    intro q m hq
    simp only [walkList, if_neg hnex, if_true] at hq
    rw [if_pos hrc] at hq
    rcases List.mem_append.mp hq with h | h
    · obtain ⟨t, ht, rest, hr⟩ := ihcs q m h
      refine ⟨FSTree.dir n true cs, List.mem_cons_self .., treeName t :: rest, ?_⟩
      simpa [treeName] using hr
    · obtain ⟨t, ht, rest, hr⟩ := ihts q m h
      exact ⟨t, List.mem_cons_of_mem _ ht, rest, hr⟩
  | case5 pref n cs ts hnex rc hrc ihcs =>
    intro q m hq
    simp only [walkList, if_neg hnex, if_true] at hq
    rw [if_neg hrc] at hq
    obtain ⟨t, ht, rest, hr⟩ := ihcs q m hq
    refine ⟨FSTree.dir n true cs, List.mem_cons_self .., treeName t :: rest, ?_⟩
    simpa [treeName] using hr
  | case6 pref n rd cs ts hnex hrd =>
    intro q m hq
    simp only [walkList, if_neg hnex, if_neg hrd] at hq
    simp at hq

/-- Helper: over an all-readable sibling list, the walk collects exactly
the visible files, with their modification times. -/
theorem walkList_mem_iff (excl : String → Bool) (pref : List String) (ts : List FSTree) :
    ∀ p m, allReadable ts = true →
      ((pref ++ p, m) ∈ (walkList excl pref ts).1 ↔ visibleIn excl pref ts p m) := by
  induction pref, ts using walkList.induct excl with
  | case1 x =>
    intro p m _
    simp [walkList, visibleIn_nil excl x p m]
  | case2 pref n m' ts ih =>
    intro p m h
    simp only [allReadable] at h
    cases p with
    | nil =>
      constructor
      · intro hq
        simp only [walkList, List.append_nil, List.mem_cons] at hq
        rcases hq with heq | hmem
        · have h1 : pref = pref ++ [n] := congrArg Prod.fst heq
          exact absurd h1 (by simp)
        · obtain ⟨t, _, rest, hr⟩ := walkList_mem_shape excl pref ts pref m hmem
          exact absurd hr (by simp)
      · intro hv; cases hv
    | cons n' rest =>
      rw [visibleIn_cons, ← ih (n' :: rest) m h]
      simp only [walkList, List.mem_cons, Prod.mk.injEq, List.append_right_inj,
        FSTree.file.injEq, List.cons.injEq]
      constructor
      · rintro (⟨⟨rfl, rfl⟩, rfl⟩ | hmem)
        · exact Or.inl (Or.inl ⟨⟨rfl, rfl⟩, rfl⟩)
        · exact Or.inr hmem
      · rintro ((⟨⟨rfl, rfl⟩, rfl⟩ | ⟨rd', cs', hdir, _⟩) | hv)
        · exact Or.inl ⟨⟨rfl, rfl⟩, rfl⟩
        · exact absurd hdir (by simp)
        · exact Or.inr hv
  | case3 pref n rd cs ts hex ih =>
    intro p m h
    simp only [allReadable, Bool.and_eq_true] at h
    cases p with
    | nil =>
      constructor
      · intro hq
        simp only [walkList, if_pos hex, List.append_nil] at hq
        obtain ⟨t, _, rest, hr⟩ := walkList_mem_shape excl pref ts pref m hq
        exact absurd hr (by simp)
      · intro hv; cases hv
    | cons n' rest =>
      rw [visibleIn_cons]
      simp only [walkList, if_pos hex]
      rw [← ih (n' :: rest) m h.2]
      constructor
      · exact fun hmem => Or.inr hmem
      · rintro ((⟨hf, _⟩ | ⟨rd', cs', hdir, hnex', _, _⟩) | hv)
        · exact absurd hf (by simp)
        · obtain ⟨h1, h2, h3⟩ := FSTree.dir.injEq .. ▸ hdir
          subst h1
          simp [hex] at hnex'
        · exact hv
  | case4 pref n cs ts hnex rc hrc ihcs ihts =>
    intro p m h
    simp only [allReadable, Bool.and_eq_true] at h
    have hnex' : excl (pathStr (pref ++ [n])) = false := by simpa using hnex
    have hwalk : walkList excl pref (FSTree.dir n true cs :: ts)
        = ((walkList excl (pref ++ [n]) cs).1 ++ (walkList excl pref ts).1,
           (walkList excl pref ts).2) := by
      simp only [walkList, if_neg hnex, if_true]
      rw [if_pos hrc]
    cases p with
    | nil =>
      rw [hwalk]
      constructor
      · intro hq
        rw [List.append_nil] at hq
        rcases List.mem_append.mp hq with hm1 | hm2
        · obtain ⟨t, _, rest, hr⟩ := walkList_mem_shape excl (pref ++ [n]) cs pref m hm1
          rw [List.append_assoc] at hr
          exact absurd hr (by simp)
        · obtain ⟨t, _, rest, hr⟩ := walkList_mem_shape excl pref ts pref m hm2
          exact absurd hr (by simp)
      · intro hv; cases hv
    | cons n' rest =>
      rw [visibleIn_cons, hwalk]
      show (pref ++ n' :: rest, m) ∈
          (walkList excl (pref ++ [n]) cs).1 ++ (walkList excl pref ts).1 ↔ _
      rw [List.mem_append]
      constructor
      · rintro (hm1 | hm2)
        · obtain ⟨t, _, r', hr⟩ := walkList_mem_shape excl (pref ++ [n]) cs _ m hm1
          rw [List.append_assoc] at hr
          have h1 := (List.append_right_inj pref).mp hr
          have hn : n' = n := by injection h1
          subst hn
          refine Or.inl (Or.inr ⟨true, cs, rfl, hnex', rfl, (ihcs rest m h.1.2).mp ?_⟩)
          rw [List.append_assoc]
          exact hm1
        · exact Or.inr ((ihts (n' :: rest) m h.2).mp hm2)
      · rintro ((⟨hf, _⟩ | ⟨rd', cs', hdir, _, _, hv⟩) | hv)
        · exact absurd hf (by simp)
        · obtain ⟨h1, h2, h3⟩ := FSTree.dir.injEq .. ▸ hdir
          subst h1; subst h3
          have hm1' := (ihcs rest m h.1.2).mpr hv
          rw [List.append_assoc] at hm1'
          exact Or.inl hm1'
        · exact Or.inr ((ihts (n' :: rest) m h.2).mpr hv)
  | case5 pref n cs ts hnex rc hrc ihcs =>
    intro p m h
    simp only [allReadable, Bool.and_eq_true] at h
    exact absurd (walkList_ok excl (pref ++ [n]) cs h.1.2) hrc
  | case6 pref n rd cs ts hnex hrd =>
    intro p m h
    simp only [allReadable, Bool.and_eq_true] at h
    exact absurd h.1.1 hrd

/-- Helper: over a well-formed, all-readable sibling list the collected
relative paths are pairwise distinct (the walk builds a proper map). -/
theorem walkList_keys_nodup (excl : String → Bool) (pref : List String) (ts : List FSTree) :
    wfChildren ts = true → allReadable ts = true →
      ((walkList excl pref ts).1.map Prod.fst).Nodup := by
  induction pref, ts using walkList.induct excl with
  | case1 x => intro _ _; simp [walkList]
  | case2 pref n m ts ih =>
    intro hwf hrd
    simp only [wfChildren, Bool.and_eq_true, List.all_eq_true] at hwf
    simp only [allReadable] at hrd
    simp only [walkList, List.map_cons, List.nodup_cons]
    refine ⟨?_, ih hwf.2 hrd⟩
    intro hmem
    obtain ⟨⟨q, m'⟩, hqm, hq⟩ := List.mem_map.mp hmem
    obtain ⟨t, ht, rest, hshape⟩ := walkList_mem_shape excl pref ts q m' hqm
    rw [hshape] at hq
    have h1 := (List.append_right_inj pref).mp hq
    have hn : treeName t = n := by injection h1
    have := hwf.1 t ht
    simp [hn] at this
  | case3 pref n rd cs ts hex ih =>
    intro hwf hrd
    simp only [wfChildren, Bool.and_eq_true, List.all_eq_true] at hwf
    simp only [allReadable, Bool.and_eq_true] at hrd
    simp only [walkList, if_pos hex]
    exact ih hwf.2 hrd.2
  | case4 pref n cs ts hnex rc hrc ihcs ihts =>
    intro hwf hrd
    simp only [wfChildren, Bool.and_eq_true, List.all_eq_true] at hwf
    simp only [allReadable, Bool.and_eq_true] at hrd
    have hwalk : walkList excl pref (FSTree.dir n true cs :: ts)
        = ((walkList excl (pref ++ [n]) cs).1 ++ (walkList excl pref ts).1,
           (walkList excl pref ts).2) := by
      simp only [walkList, if_neg hnex, if_true]
      rw [if_pos hrc]
    rw [hwalk]
    show (((walkList excl (pref ++ [n]) cs).1 ++ (walkList excl pref ts).1).map Prod.fst).Nodup
    rw [List.map_append, List.nodup_append]
    refine ⟨ihcs hwf.1.2 hrd.1.2, ihts hwf.2 hrd.2, ?_⟩
    intro q hq1 hq2
    obtain ⟨⟨q1, m1⟩, hm1, hqe1⟩ := List.mem_map.mp hq1
    obtain ⟨⟨q2, m2⟩, hm2, hqe2⟩ := List.mem_map.mp hq2
    obtain ⟨t1, _, r1, hs1⟩ := walkList_mem_shape excl (pref ++ [n]) cs q1 m1 hm1
    obtain ⟨t2, ht2, r2, hs2⟩ := walkList_mem_shape excl pref ts q2 m2 hm2
    have : q1 = q2 := hqe1.trans hqe2.symm
    rw [hs1, hs2, List.append_assoc] at this
    have h1 := (List.append_right_inj pref).mp this
    have hn : n = treeName t2 := by injection h1
    have := hwf.1.1 t2 ht2
    simp [← hn] at this
  | case5 pref n cs ts hnex rc hrc ihcs =>
    intro hwf hrd
    simp only [allReadable, Bool.and_eq_true] at hrd
    exact absurd (walkList_ok excl (pref ++ [n]) cs hrd.1.2) hrc
  | case6 pref n rd cs ts hnex hrd' =>
    intro hwf hrd
    simp only [allReadable, Bool.and_eq_true] at hrd
    exact absurd hrd.1.1 hrd'

/-- Helper: entries of the root walk over a readable tree are exactly the
visible files (the root path `"."` guard included). -/
theorem walkRoot_mem_iff (excl : String → Bool) (cs : List FSTree)
    (hrd : allReadable cs = true) (p : List String) (m : Nat) :
    (p, m) ∈ (walkRoot excl true cs).1 ↔ visible excl cs p m := by
  unfold walkRoot visible
  cases hdot : excl "." with
  | true => simp [hdot]
  | false =>
    simp only [hdot, Bool.false_eq_true, if_false, if_true, false_and]
    have h := walkList_mem_iff excl [] cs p m hrd
    simp only [List.nil_append] at h
    simp [h]

/-- Helper: root-walk keys are pairwise distinct. -/
theorem walkRoot_keys_nodup (excl : String → Bool) (cs : List FSTree)
    (hwf : wfChildren cs = true) (hrd : allReadable cs = true) :
    ((walkRoot excl true cs).1.map Prod.fst).Nodup := by
  unfold walkRoot
  cases hdot : excl "." with
  | true => simp
  | false =>
    simp only [Bool.false_eq_true, if_false, if_true]
    exact walkList_keys_nodup excl [] cs hwf hrd

/-- Helper: snapshot lookup on a cons. -/
theorem snapFind_cons_eq_none_iff (e : List String × Nat) (rest : List (List String × Nat))
    (p : List String) :
    snapFind (e :: rest) p = none ↔ snapFind rest p = none ∧ e.1 ≠ p := by
  simp only [snapFind]
  cases h : snapFind rest p with
  | some m => simp
  | none => by_cases he : e.1 = p <;> simp [he]

/-- Helper: a snapshot lookup misses exactly when no entry carries the
path. -/
theorem snapFind_eq_none_iff (s : List (List String × Nat)) (p : List String) :
    snapFind s p = none ↔ ∀ m, (p, m) ∉ s := by
  induction s with
  | nil => simp [snapFind]
  | cons e rest ih =>
    obtain ⟨e1, e2⟩ := e
    rw [snapFind_cons_eq_none_iff, ih]
    constructor
    · rintro ⟨hrest, hne⟩ m hm
      rcases List.mem_cons.mp hm with he | hm'
      · exact hne (congrArg Prod.fst he.symm)
      · exact hrest m hm'
    · intro hall
      refine ⟨fun m hm => hall m (List.mem_cons_of_mem _ hm), ?_⟩
      intro he
      exact hall e2 (by simp [← he])

/-- Helper: on a snapshot with distinct keys, lookup finds exactly the
stored entry. -/
theorem snapFind_eq_some_iff (s : List (List String × Nat)) (p : List String) :
    (s.map Prod.fst).Nodup → ∀ m, (snapFind s p = some m ↔ (p, m) ∈ s) := by
  induction s with
  | nil => intro _ m; simp [snapFind]
  | cons e rest ih =>
    intro hnd m
    obtain ⟨e1, e2⟩ := e
    simp only [List.map_cons, List.nodup_cons] at hnd
    obtain ⟨hnotin, hnd'⟩ := hnd
    simp only [snapFind]
    cases hr : snapFind rest p with
    | some m' =>
      have hmem : (p, m') ∈ rest := (ih hnd' m').mp hr
      constructor
      · intro hsome
        have hm : m' = m := by injection hsome
        exact List.mem_cons_of_mem _ (hm ▸ hmem)
      · intro hm
        rcases List.mem_cons.mp hm with he | hm'
        · have hp : p = e1 := congrArg Prod.fst he
          subst hp
          exact absurd (List.mem_map.mpr ⟨(p, m'), hmem, rfl⟩) hnotin
        · rw [← (ih hnd' m).mpr hm', hr]
    | none =>
      have hnotrest : ∀ m'', (p, m'') ∉ rest := (snapFind_eq_none_iff rest p).mp hr
      by_cases he : e1 = p
      · constructor
        · intro hsome
          rw [if_pos he] at hsome
          have hm : e2 = m := by injection hsome
          rw [← hm, ← he]
          exact List.mem_cons_self ..
        · intro hm
          rcases List.mem_cons.mp hm with hee | hm'
          · rw [if_pos he]
            have hm2 : m = e2 := congrArg Prod.snd hee
            rw [hm2]
          · exact absurd hm' (hnotrest m)
      · constructor
        · intro hsome
          rw [if_neg he] at hsome
          cases hsome
        · intro hm
          rcases List.mem_cons.mp hm with hee | hm'
          · exact absurd (congrArg Prod.fst hee).symm he
          · exact absurd hm' (hnotrest m)

/-- C1: one poll of the detector, on a well-formed filesystem with no read
errors, returns exactly the changed paths and replaces the stored snapshot:
the new snapshot (the second component, which the closure stores as `prev`)
maps a path to a mtime exactly when it is a visible file — reachable and
not beneath a directory whose relative path matches an exclude-directory
pattern — and the returned change list contains a path exactly when it was
created (visible now, absent from the previous snapshot), modified (present
in both with a different mtime), or deleted (in the previous snapshot, not
visible now). -/
theorem detect_poll_exact
    (pm : String → String → Bool × Option String) (excludeDirs : List String)
    (excl : String → Bool) (prev : List (List String × Nat)) (cs : List FSTree)
    (hexcl : excl = fun name => matchPatterns pm excludeDirs name)
    (hwf : wfChildren cs = true) (hread : allReadable cs = true)
    (hprev : (prev.map Prod.fst).Nodup) :
    (∀ p m, snapFind (detectPoll excl prev true cs).2 p = some m ↔ visible excl cs p m) ∧
    (∀ p, p ∈ (detectPoll excl prev true cs).1 ↔
      ((∃ m, visible excl cs p m ∧ snapFind prev p = none) ∨
       (∃ m m0, visible excl cs p m ∧ snapFind prev p = some m0 ∧ m0 ≠ m) ∨
       ((∀ m, ¬ visible excl cs p m) ∧ ∃ m0, snapFind prev p = some m0))) := by
  have hndcurr := walkRoot_keys_nodup excl cs hwf hread
  have hmemcurr : ∀ p m, (p, m) ∈ (walkRoot excl true cs).1 ↔ visible excl cs p m :=
    fun p m => walkRoot_mem_iff excl cs hread p m
  have hfind : ∀ p m, snapFind (walkRoot excl true cs).1 p = some m ↔ visible excl cs p m :=
    fun p m => (snapFind_eq_some_iff _ p hndcurr m).trans (hmemcurr p m)
  have hnone : ∀ p,
      (snapFind (walkRoot excl true cs).1 p = none ↔ ∀ m, ¬ visible excl cs p m) := by
    intro p
    rw [snapFind_eq_none_iff]
    constructor
    · intro hall m hv; exact hall m ((hmemcurr p m).mpr hv)
    · intro hall m hm; exact hall m ((hmemcurr p m).mp hm)
  constructor
  · intro p m
    exact hfind p m
  · intro p
    have hsplit : (detectPoll excl prev true cs).1 =
        ((walkRoot excl true cs).1.filterMap (fun e =>
          match snapFind prev e.1 with
          | none => some e.1
          | some m0 => if m0 ≠ e.2 then some e.1 else none)) ++
        ((prev.filter (fun e => (snapFind (walkRoot excl true cs).1 e.1).isNone)).map
          Prod.fst) := rfl
    rw [hsplit, List.mem_append]
    have hcm : p ∈ (walkRoot excl true cs).1.filterMap (fun e =>
          match snapFind prev e.1 with
          | none => some e.1
          | some m0 => if m0 ≠ e.2 then some e.1 else none) ↔
        ((∃ m, visible excl cs p m ∧ snapFind prev p = none) ∨
         (∃ m m0, visible excl cs p m ∧ snapFind prev p = some m0 ∧ m0 ≠ m)) := by
      rw [List.mem_filterMap]
      constructor
      · rintro ⟨⟨q, mq⟩, hq, hf⟩
        cases hsp : snapFind prev q with
        | none =>
          simp only [hsp] at hf
          have hqp : q = p := by injection hf
          subst hqp
          exact Or.inl ⟨mq, (hmemcurr q mq).mp hq, hsp⟩
        | some m0 =>
          simp only [hsp] at hf
          by_cases hne : m0 ≠ mq
          · rw [if_pos hne] at hf
            have hqp : q = p := by injection hf
            subst hqp
            exact Or.inr ⟨mq, m0, (hmemcurr q mq).mp hq, hsp, hne⟩
          · rw [if_neg hne] at hf
            cases hf
      · rintro (⟨m, hv, hsp⟩ | ⟨m, m0, hv, hsp, hne⟩)
        · exact ⟨(p, m), (hmemcurr p m).mpr hv, by simp [hsp]⟩
        · exact ⟨(p, m), (hmemcurr p m).mpr hv, by simp [hsp, hne]⟩
    have hdel : p ∈ (prev.filter
          (fun e => (snapFind (walkRoot excl true cs).1 e.1).isNone)).map Prod.fst ↔
        ((∀ m, ¬ visible excl cs p m) ∧ ∃ m0, snapFind prev p = some m0) := by
      rw [List.mem_map]
      constructor
      · rintro ⟨⟨q, m0⟩, hq, hqp⟩
        have hqp' : q = p := hqp
        subst hqp'
        rw [List.mem_filter] at hq
        obtain ⟨hqprev, hnone'⟩ := hq
        have h0 : snapFind (walkRoot excl true cs).1 q = none := by
          simpa [Option.isNone_iff_eq_none] using hnone'
        refine ⟨(hnone q).mp h0, m0, ?_⟩
        exact (snapFind_eq_some_iff prev q hprev m0).mpr hqprev
      · rintro ⟨hnv, m0, hm0⟩
        refine ⟨(p, m0), ?_, rfl⟩
        rw [List.mem_filter]
        refine ⟨(snapFind_eq_some_iff prev p hprev m0).mp hm0, ?_⟩
        simp [Option.isNone_iff_eq_none, (hnone p).mpr hnv]
    rw [hcm, hdel]
    exact or_assoc

/-- Witness for C1: a concrete tree with one visible file `f`, one file `g`
beneath the excluded directory `skip`, and one stale snapshot entry `old`;
the freshly created `f` is reported changed. -/
theorem detect_poll_exact_wit :
    ["f"] ∈ (detectPoll
      (fun name => matchPatterns (fun p n => (decide (p = n), none)) ["skip"] name)
      [(["old"], 5)] true
      [FSTree.file "f" 1, FSTree.dir "skip" true [FSTree.file "g" 2]]).1 := by
  have h := detect_poll_exact (fun p n => (decide (p = n), none)) ["skip"]
    (fun name => matchPatterns (fun p n => (decide (p = n), none)) ["skip"] name)
    [(["old"], 5)] [FSTree.file "f" 1, FSTree.dir "skip" true [FSTree.file "g" 2]]
    rfl (by simp [wfChildren, treeName]) (by simp [allReadable]) (by simp)
  refine (h.2 ["f"]).mpr (Or.inl ⟨1, ⟨rfl, ?_⟩, rfl⟩)
  exact ⟨FSTree.file "f" 1, List.mem_cons_self .., Or.inl ⟨rfl, rfl⟩⟩

/-- C6 (code-bug evidence): one unreadable directory aborts the entire
walk.  The tree holds the unreadable directory `a` and, after it in walk
order, the unchanged file `b` (mtime 1, already in the snapshot with
mtime 1).  Because `Detect`'s callback returns the walk error,
`filepath.Walk` stops before visiting `b`: the new snapshot comes back
empty — `b` is not re-recorded — and `b` is misreported as a change
(deleted), where the claim requires files outside the failing entry to
still be recorded and diffed. -/
theorem detect_poll_walk_error_aborts :
    detectPoll (fun name => matchPatterns (fun p n => (decide (p = n), none)) [] name)
      [(["b"], 1)] true [FSTree.dir "a" false [], FSTree.file "b" 1]
      = ([["b"]], []) := by
  simp [detectPoll, walkRoot, walkList, snapFind, matchPatterns, pathStr]

end Revolver
